import Mathlib

/-!
Shallow embedding of the three-way synchronization core of `dat.py`
(working tree / local snapshot / remote master reconciliation).

Python strings are modelled as lists of characters (`PyStr`), Python
dicts as association lists with keys unique in insertion order (`Inventory`),
Python sets as duplicate-free lists.  Fallible dictionary accesses
(`KeyError`) are modelled with `Option`.
-/

abbrev PyStr := List Char
abbrev Fname := PyStr
abbrev Fp := PyStr

/-- An inventory: the in-memory form of a Python `dict` mapping path to
fingerprint, kept as an association list in insertion order. -/
abbrev Inventory := List (Fname × Fp)

namespace Inventory

/-- `m.get(p)`: the fingerprint bound to `p`, if any. -/
def find? : Inventory → Fname → Option Fp
  | [], _ => none
  | e :: rest, p => if e.1 = p then some e.2 else find? rest p

/-- `p in m.keys()`. -/
def contains (m : Inventory) (p : Fname) : Bool := (m.find? p).isSome

/-- `m.keys()` in insertion order. -/
def keys (m : Inventory) : List Fname := m.map Prod.fst

/-- `m[p] = v`: replace the existing binding in place, otherwise append
a new binding at the end (Python dict assignment). -/
def set : Inventory → Fname → Fp → Inventory
  | [], p, v => [(p, v)]
  | e :: rest, p, v => if e.1 = p then (p, v) :: rest else e :: set rest p v

/-- Removal of a present binding (the successful case of `m.pop(p)`). -/
def erase : Inventory → Fname → Inventory
  | [], _ => []
  | e :: rest, p => if e.1 = p then rest else e :: erase rest p

/-- `m.pop(p)`: `none` models the `KeyError` raised on a missing key. -/
def pop (m : Inventory) (p : Fname) : Option Inventory :=
  if m.contains p then some (m.erase p) else none

theorem find?_isSome {m : Inventory} {p : Fname} :
    (m.find? p).isSome = true ↔ p ∈ m.keys := by
  induction m with
  | nil => simp [find?, keys]
  | cons e rest ih =>
    by_cases h : e.1 = p
    · simp [find?, keys, h]
    · simp [find?, keys, h, ih]
      exact fun hp => (h hp.symm).elim

theorem contains_iff {m : Inventory} {p : Fname} :
    m.contains p = true ↔ p ∈ m.keys := by
  simp [contains, find?_isSome]

theorem contains_false_iff {m : Inventory} {p : Fname} :
    m.contains p = false ↔ p ∉ m.keys := by
  rw [← Bool.not_eq_true, not_iff_not]
  exact contains_iff

end Inventory

/-! ## The classifier (`needs_push` / `needs_pull` / `needs_purge` / `needs_kill`) -/

/-- `needs_push(current, local)`: paths new or changed in the working tree.
(`local` is a Lean keyword, so the parameter is named `locl`.) -/
def needs_push (current locl : Inventory) : List Fname :=
  if locl.length ≠ 0 then
    current.keys.filter (fun f =>
      !(locl.contains f) || decide (current.find? f ≠ locl.find? f))
  else
    current.keys

/-- `needs_pull(master, local)`: paths new or changed on the remote. -/
def needs_pull (mas locl : Inventory) : List Fname :=
  mas.keys.filter (fun f =>
    !(locl.contains f) || decide (locl.find? f ≠ mas.find? f))

/-- `needs_purge(current, local)`: paths deleted from the working tree. -/
def needs_purge (current locl : Inventory) : List Fname :=
  locl.keys.filter (fun f => !(current.contains f))

/-- `needs_kill(master, local)`: paths deleted on the remote. -/
def needs_kill (mas locl : Inventory) : List Fname :=
  locl.keys.filter (fun f => !(mas.contains f))

theorem mem_needs_push {current locl : Inventory} {p : Fname} :
    p ∈ needs_push current locl ↔
      p ∈ current.keys ∧ (p ∉ locl.keys ∨ current.find? p ≠ locl.find? p) := by
  unfold needs_push
  by_cases h : locl.length ≠ 0
  · simp [h, List.mem_filter, Inventory.contains_false_iff]
  · have hnil : locl = [] := by
      simpa using of_not_not h
    subst hnil
    simp [Inventory.keys]

theorem needs_push_nil {current : Inventory} :
    needs_push current [] = current.keys := by
  simp [needs_push]

theorem mem_needs_pull {mas locl : Inventory} {p : Fname} :
    p ∈ needs_pull mas locl ↔
      p ∈ mas.keys ∧ (p ∉ locl.keys ∨ mas.find? p ≠ locl.find? p) := by
  unfold needs_pull
  simp [List.mem_filter, Inventory.contains_false_iff, ne_comm]

theorem mem_needs_purge {current locl : Inventory} {p : Fname} :
    p ∈ needs_purge current locl ↔ p ∈ locl.keys ∧ p ∉ current.keys := by
  unfold needs_purge
  simp [List.mem_filter, Inventory.contains_false_iff]

theorem mem_needs_kill {mas locl : Inventory} {p : Fname} :
    p ∈ needs_kill mas locl ↔ p ∈ locl.keys ∧ p ∉ mas.keys := by
  unfold needs_kill
  simp [List.mem_filter, Inventory.contains_false_iff]

/-- C1: for every triple of inventories, the classifier computes exactly the
four candidate sets of §4.5: `push = { p ∈ current | p ∉ local ∨ current[p] ≠
local[p] }` (all of `current` when `local` is empty), `purge = { p ∈ local |
p ∉ current }`, `pull = { p ∈ master | p ∉ local ∨ master[p] ≠ local[p] }`,
and `kill = { p ∈ local | p ∉ master }`. -/
theorem C1_classifier_candidate_sets (current locl mas : Inventory) (p : Fname) :
    (p ∈ needs_push current locl ↔
      p ∈ current.keys ∧ (p ∉ locl.keys ∨ current.find? p ≠ locl.find? p)) ∧
    (locl = [] → needs_push current locl = current.keys) ∧
    (p ∈ needs_purge current locl ↔ p ∈ locl.keys ∧ p ∉ current.keys) ∧
    (p ∈ needs_pull mas locl ↔
      p ∈ mas.keys ∧ (p ∉ locl.keys ∨ mas.find? p ≠ locl.find? p)) ∧
    (p ∈ needs_kill mas locl ↔ p ∈ locl.keys ∧ p ∉ mas.keys) := by
  refine ⟨mem_needs_push, ?_, mem_needs_purge, mem_needs_pull, mem_needs_kill⟩
  rintro rfl
  exact needs_push_nil

/-- C8: the candidate sets satisfy `push ∩ purge = ∅` and `pull ∩ kill = ∅`,
while `push ∩ pull` and `push ∩ kill` can each be non-empty (witnessed by
concrete triples). -/
theorem C8_partition :
    (∀ (current locl mas : Inventory) (p : Fname),
      ¬(p ∈ needs_push current locl ∧ p ∈ needs_purge current locl) ∧
      ¬(p ∈ needs_pull mas locl ∧ p ∈ needs_kill mas locl)) ∧
    (['a'] ∈ needs_push [(['a'], ['1'])] [(['a'], ['0'])] ∧
     ['a'] ∈ needs_pull [(['a'], ['2'])] [(['a'], ['0'])]) ∧
    (['a'] ∈ needs_push [(['a'], ['1'])] [(['a'], ['0'])] ∧
     ['a'] ∈ needs_kill [] [(['a'], ['0'])]) := by
  refine ⟨fun current locl mas p => ⟨?_, ?_⟩, by decide, by decide⟩
  · rintro ⟨h1, h2⟩
    exact (mem_needs_purge.mp h2).2 (mem_needs_push.mp h1).1
  · rintro ⟨h1, h2⟩
    exact (mem_needs_kill.mp h2).2 (mem_needs_pull.mp h1).1

/-! ## Inventory mutation lemmas -/

namespace Inventory

theorem find?_erase_ne {m : Inventory} {f p : Fname} (h : f ≠ p) :
    (m.erase f).find? p = m.find? p := by
  induction m with
  | nil => rfl
  | cons e rest ih =>
    by_cases he : e.1 = f
    · have hne : e.1 ≠ p := by rw [he]; exact h
      simp [erase, he, find?, hne, h]
    · by_cases hp : e.1 = p
      · simp [erase, he, find?, hp, Ne.symm h]
      · simp [erase, he, find?, hp, ih]

theorem find?_set_ne {m : Inventory} {f p : Fname} {v : Fp} (h : f ≠ p) :
    (m.set f v).find? p = m.find? p := by
  induction m with
  | nil => simp [set, find?, h]
  | cons e rest ih =>
    by_cases he : e.1 = f
    · have hne : e.1 ≠ p := by rw [he]; exact h
      simp [set, he, find?, hne, h]
    · by_cases hp : e.1 = p
      · simp [set, he, find?, hp, Ne.symm h]
      · simp [set, he, find?, hp, ih]

end Inventory

/-! ## The resolvers

Each `resolve_*_conflicts` function of the source iterates over a candidate
set, mutating the `local` / `master` dicts in place and collecting a
`conflict` and a `resolved` set.  The iteration is factored through
`runResolver`; each `*_step` function is the exact body of the
corresponding `for f in ...:` loop.  `none` models a `KeyError`. -/

inductive Verdict
  | act
  | conf
  | res

/-- Run a resolver loop over the candidate list, threading the mutable
state and collecting the `conflict` and `resolved` sets in visit order. -/
def runResolver {σ : Type} (step : σ → Fname → Option (σ × Verdict)) :
    List Fname → σ → List Fname → List Fname →
    Option (List Fname × List Fname × σ)
  | [], st, conflict, resolved => some (conflict, resolved, st)
  | f :: fs, st, conflict, resolved =>
    match step st f with
    | none => none
    | some (st', Verdict.act) => runResolver step fs st' conflict resolved
    | some (st', Verdict.conf) => runResolver step fs st' (conflict ++ [f]) resolved
    | some (st', Verdict.res) => runResolver step fs st' conflict (resolved ++ [f])

/-- Loop body of `resolve_push_conflicts`; state is `(local, master)`. -/
def push_step (current : Inventory) (hard : Bool)
    (st : Inventory × Inventory) (f : Fname) :
    Option ((Inventory × Inventory) × Verdict) :=
  let locl := st.1; let mas := st.2
  if locl.contains f then
    if mas.contains f then
      if mas.find? f = locl.find? f then
        if hard then
          match current.find? f with
          | none => none
          | some c => some ((locl.set f c, mas.set f c), Verdict.act)
        else some ((locl, mas), Verdict.act)
      else
        match current.find? f with
        | none => none
        | some c =>
          if mas.find? f = some c then some ((locl.set f c, mas), Verdict.res)
          else some ((locl, mas), Verdict.conf)
    else
      if hard then
        match current.find? f with
        | none => none
        | some c => some ((locl.set f c, mas.set f c), Verdict.act)
      else some ((locl, mas), Verdict.act)
  else
    if mas.contains f then
      match current.find? f with
      | none => none
      | some c =>
        if mas.find? f = some c then some ((locl.set f c, mas), Verdict.res)
        else some ((locl, mas), Verdict.conf)
    else
      if hard then
        match current.find? f with
        | none => none
        | some c => some ((locl.set f c, mas.set f c), Verdict.act)
      else some ((locl, mas), Verdict.act)

/-- Loop body of `resolve_purge_conflicts`; state is `(master, local)`. -/
def purge_step (hard : Bool) (st : Inventory × Inventory) (f : Fname) :
    Option ((Inventory × Inventory) × Verdict) :=
  let mas := st.1; let locl := st.2
  if mas.contains f then
    match locl.find? f with
    | none => none
    | some l =>
      if mas.find? f ≠ some l then some ((mas, locl), Verdict.conf)
      else if hard then some ((mas.erase f, locl.erase f), Verdict.act)
      else some ((mas, locl), Verdict.act)
  else
    match locl.pop f with
    | none => none
    | some locl' => some ((mas, locl'), Verdict.res)

/-- Loop body of `resolve_pull_conflicts`; state is `local`
(`master` is only read). -/
def pull_step (current mas : Inventory) (hard : Bool)
    (locl : Inventory) (f : Fname) : Option (Inventory × Verdict) :=
  if locl.contains f then
    if current.contains f then
      if current.find? f = locl.find? f then
        if hard then
          match mas.find? f with
          | none => none
          | some m => some (locl.set f m, Verdict.act)
        else some (locl, Verdict.act)
      else
        match mas.find? f with
        | none => none
        | some m =>
          if current.find? f = some m then some (locl.set f m, Verdict.res)
          else some (locl, Verdict.conf)
    else some (locl, Verdict.conf)
  else
    if current.contains f then
      match mas.find? f with
      | none => none
      | some m =>
        if current.find? f = some m then some (locl.set f m, Verdict.res)
        else some (locl, Verdict.conf)
    else
      if hard then
        match mas.find? f with
        | none => none
        | some m => some (locl.set f m, Verdict.act)
      else some (locl, Verdict.act)

/-- Loop body of `resolve_kill_conflicts`; state is `local`. -/
def kill_step (current : Inventory) (hard : Bool)
    (locl : Inventory) (f : Fname) : Option (Inventory × Verdict) :=
  if current.contains f then
    match locl.find? f with
    | none => none
    | some l =>
      if current.find? f ≠ some l then some (locl, Verdict.conf)
      else if hard then some (locl.erase f, Verdict.act)
      else some (locl, Verdict.act)
  else
    match locl.pop f with
    | none => none
    | some locl' => some (locl', Verdict.res)

def resolve_push_conflicts (current locl mas : Inventory) (push : List Fname)
    (hard : Bool) : Option (List Fname × List Fname × (Inventory × Inventory)) :=
  runResolver (push_step current hard) push (locl, mas) [] []

def resolve_purge_conflicts (mas locl : Inventory) (purge : List Fname)
    (hard : Bool) : Option (List Fname × List Fname × (Inventory × Inventory)) :=
  runResolver (purge_step hard) purge (mas, locl) [] []

def resolve_pull_conflicts (current locl mas : Inventory) (pull : List Fname)
    (hard : Bool) : Option (List Fname × List Fname × Inventory) :=
  runResolver (pull_step current mas hard) pull locl [] []

def resolve_kill_conflicts (current locl : Inventory) (kill : List Fname)
    (hard : Bool) : Option (List Fname × List Fname × Inventory) :=
  runResolver (kill_step current hard) kill locl [] []

/-! ## Generic facts about resolver loops -/

theorem runResolver_conflict_mono {σ : Type} (step : σ → Fname → Option (σ × Verdict)) :
    ∀ (fs : List Fname) (st : σ) (conflict resolved C R : List Fname) (st' : σ),
      runResolver step fs st conflict resolved = some (C, R, st') →
      ∀ x ∈ conflict, x ∈ C := by
  intro fs
  induction fs with
  | nil =>
    intro st conflict resolved C R st' h x hx
    simp only [runResolver, Option.some.injEq, Prod.mk.injEq] at h
    exact h.1 ▸ hx
  | cons f fs ih =>
    intro st conflict resolved C R st' h x hx
    cases hstep : step st f with
    | none => simp [runResolver, hstep] at h
    | some sv =>
      obtain ⟨st1, v⟩ := sv
      cases v with
      | act =>
        simp only [runResolver, hstep] at h
        exact ih st1 conflict resolved C R st' h x hx
      | conf =>
        simp only [runResolver, hstep] at h
        exact ih st1 (conflict ++ [f]) resolved C R st' h x (by simp [hx])
      | res =>
        simp only [runResolver, hstep] at h
        exact ih st1 conflict (resolved ++ [f]) C R st' h x hx

theorem runResolver_resolved_mono {σ : Type} (step : σ → Fname → Option (σ × Verdict)) :
    ∀ (fs : List Fname) (st : σ) (conflict resolved C R : List Fname) (st' : σ),
      runResolver step fs st conflict resolved = some (C, R, st') →
      ∀ x ∈ resolved, x ∈ R := by
  intro fs
  induction fs with
  | nil =>
    intro st conflict resolved C R st' h x hx
    simp only [runResolver, Option.some.injEq, Prod.mk.injEq] at h
    exact h.2.1 ▸ hx
  | cons f fs ih =>
    intro st conflict resolved C R st' h x hx
    cases hstep : step st f with
    | none => simp [runResolver, hstep] at h
    | some sv =>
      obtain ⟨st1, v⟩ := sv
      cases v with
      | act =>
        simp only [runResolver, hstep] at h
        exact ih st1 conflict resolved C R st' h x hx
      | conf =>
        simp only [runResolver, hstep] at h
        exact ih st1 (conflict ++ [f]) resolved C R st' h x hx
      | res =>
        simp only [runResolver, hstep] at h
        exact ih st1 conflict (resolved ++ [f]) C R st' h x (by simp [hx])

theorem runResolver_conflict_sub {σ : Type} (step : σ → Fname → Option (σ × Verdict)) :
    ∀ (fs : List Fname) (st : σ) (conflict resolved C R : List Fname) (st' : σ),
      runResolver step fs st conflict resolved = some (C, R, st') →
      ∀ x ∈ C, x ∈ conflict ∨ x ∈ fs := by
  intro fs
  induction fs with
  | nil =>
    intro st conflict resolved C R st' h x hx
    simp only [runResolver, Option.some.injEq, Prod.mk.injEq] at h
    exact Or.inl (h.1 ▸ hx)
  | cons f fs ih =>
    intro st conflict resolved C R st' h x hx
    cases hstep : step st f with
    | none => simp [runResolver, hstep] at h
    | some sv =>
      obtain ⟨st1, v⟩ := sv
      cases v with
      | act =>
        simp only [runResolver, hstep] at h
        rcases ih st1 conflict resolved C R st' h x hx with h1 | h2
        · exact Or.inl h1
        · exact Or.inr (List.mem_cons_of_mem f h2)
      | conf =>
        simp only [runResolver, hstep] at h
        rcases ih st1 (conflict ++ [f]) resolved C R st' h x hx with h1 | h2
        · rcases List.mem_append.mp h1 with h3 | h4
          · exact Or.inl h3
          · exact Or.inr (by simp at h4; simp [h4])
        · exact Or.inr (List.mem_cons_of_mem f h2)
      | res =>
        simp only [runResolver, hstep] at h
        rcases ih st1 conflict (resolved ++ [f]) C R st' h x hx with h1 | h2
        · exact Or.inl h1
        · exact Or.inr (List.mem_cons_of_mem f h2)

theorem runResolver_resolved_sub {σ : Type} (step : σ → Fname → Option (σ × Verdict)) :
    ∀ (fs : List Fname) (st : σ) (conflict resolved C R : List Fname) (st' : σ),
      runResolver step fs st conflict resolved = some (C, R, st') →
      ∀ x ∈ R, x ∈ resolved ∨ x ∈ fs := by
  intro fs
  induction fs with
  | nil =>
    intro st conflict resolved C R st' h x hx
    simp only [runResolver, Option.some.injEq, Prod.mk.injEq] at h
    exact Or.inl (h.2.1 ▸ hx)
  | cons f fs ih =>
    intro st conflict resolved C R st' h x hx
    cases hstep : step st f with
    | none => simp [runResolver, hstep] at h
    | some sv =>
      obtain ⟨st1, v⟩ := sv
      cases v with
      | act =>
        simp only [runResolver, hstep] at h
        rcases ih st1 conflict resolved C R st' h x hx with h1 | h2
        · exact Or.inl h1
        · exact Or.inr (List.mem_cons_of_mem f h2)
      | conf =>
        simp only [runResolver, hstep] at h
        rcases ih st1 (conflict ++ [f]) resolved C R st' h x hx with h1 | h2
        · exact Or.inl h1
        · exact Or.inr (List.mem_cons_of_mem f h2)
      | res =>
        simp only [runResolver, hstep] at h
        rcases ih st1 conflict (resolved ++ [f]) C R st' h x hx with h1 | h2
        · rcases List.mem_append.mp h1 with h3 | h4
          · exact Or.inl h3
          · exact Or.inr (by simp at h4; simp [h4])
        · exact Or.inr (List.mem_cons_of_mem f h2)

theorem runResolver_disjoint {σ : Type} (step : σ → Fname → Option (σ × Verdict)) :
    ∀ (fs : List Fname) (st : σ) (conflict resolved C R : List Fname) (st' : σ),
      fs.Nodup →
      (∀ x ∈ fs, x ∉ conflict ∧ x ∉ resolved) →
      (∀ x, ¬(x ∈ conflict ∧ x ∈ resolved)) →
      runResolver step fs st conflict resolved = some (C, R, st') →
      ∀ x, ¬(x ∈ C ∧ x ∈ R) := by
  intro fs
  induction fs with
  | nil =>
    intro st conflict resolved C R st' _ _ hdisj h
    simp only [runResolver, Option.some.injEq, Prod.mk.injEq] at h
    obtain ⟨hC, hR, _⟩ := h
    subst hC; subst hR
    exact hdisj
  | cons f fs ih =>
    intro st conflict resolved C R st' hnd hfr hdisj h
    have hndt : fs.Nodup := (List.nodup_cons.mp hnd).2
    have hfh : f ∉ fs := (List.nodup_cons.mp hnd).1
    have hfc : f ∉ conflict ∧ f ∉ resolved := hfr f (by simp)
    cases hstep : step st f with
    | none => simp [runResolver, hstep] at h
    | some sv =>
      obtain ⟨st1, v⟩ := sv
      cases v with
      | act =>
        simp only [runResolver, hstep] at h
        exact ih st1 conflict resolved C R st' hndt
          (fun x hx => hfr x (List.mem_cons_of_mem f hx)) hdisj h
      | conf =>
        simp only [runResolver, hstep] at h
        refine ih st1 (conflict ++ [f]) resolved C R st' hndt ?_ ?_ h
        · intro x hx
          have hne : x ≠ f := fun hxf => hfh (hxf ▸ hx)
          have := hfr x (List.mem_cons_of_mem f hx)
          simp [this.1, this.2, hne]
        · intro x ⟨hx1, hx2⟩
          rcases List.mem_append.mp hx1 with h3 | h4
          · exact hdisj x ⟨h3, hx2⟩
          · simp at h4
            exact hfc.2 (h4 ▸ hx2)
      | res =>
        simp only [runResolver, hstep] at h
        refine ih st1 conflict (resolved ++ [f]) C R st' hndt ?_ ?_ h
        · intro x hx
          have hne : x ≠ f := fun hxf => hfh (hxf ▸ hx)
          have := hfr x (List.mem_cons_of_mem f hx)
          simp [this.1, this.2, hne]
        · intro x ⟨hx1, hx2⟩
          rcases List.mem_append.mp hx2 with h3 | h4
          · exact hdisj x ⟨hx1, h3⟩
          · simp at h4
            exact hfc.1 (h4 ▸ hx1)

/-- If every step on a path different from `p` preserves an observation of
the state, and visiting `p` while the observation holds leaves the state
unchanged and reports a conflict, then the observation survives the loop. -/
theorem runResolver_preserve_point {σ α : Type}
    (step : σ → Fname → Option (σ × Verdict)) (p : Fname) (O : σ → α) (o₀ : α)
    (hloc : ∀ st f st' v, f ≠ p → step st f = some (st', v) → O st' = O st)
    (hvisit : ∀ st₁, O st₁ = o₀ → step st₁ p = some (st₁, Verdict.conf)) :
    ∀ (fs : List Fname) (st : σ) (conflict resolved C R : List Fname) (st' : σ),
      O st = o₀ →
      runResolver step fs st conflict resolved = some (C, R, st') →
      O st' = o₀ := by
  intro fs
  induction fs with
  | nil =>
    intro st conflict resolved C R st' hO h
    simp only [runResolver, Option.some.injEq, Prod.mk.injEq] at h
    exact h.2.2 ▸ hO
  | cons f fs ih =>
    intro st conflict resolved C R st' hO h
    by_cases hfp : f = p
    · subst hfp
      have hstep := hvisit st hO
      simp only [runResolver, hstep] at h
      exact ih st (conflict ++ [f]) resolved C R st' hO h
    · cases hstep : step st f with
      | none => simp [runResolver, hstep] at h
      | some sv =>
        obtain ⟨st1, v⟩ := sv
        have hO1 : O st1 = o₀ := (hloc st f st1 v hfp hstep) ▸ hO
        cases v with
        | act =>
          simp only [runResolver, hstep] at h
          exact ih st1 conflict resolved C R st' hO1 h
        | conf =>
          simp only [runResolver, hstep] at h
          exact ih st1 (conflict ++ [f]) resolved C R st' hO1 h
        | res =>
          simp only [runResolver, hstep] at h
          exact ih st1 conflict (resolved ++ [f]) C R st' hO1 h

/-- Under the same assumptions, if `p` is among the candidates then it ends
up in the conflict set. -/
theorem runResolver_conflict_point {σ α : Type}
    (step : σ → Fname → Option (σ × Verdict)) (p : Fname) (O : σ → α) (o₀ : α)
    (hloc : ∀ st f st' v, f ≠ p → step st f = some (st', v) → O st' = O st)
    (hvisit : ∀ st₁, O st₁ = o₀ → step st₁ p = some (st₁, Verdict.conf)) :
    ∀ (fs : List Fname) (st : σ) (conflict resolved C R : List Fname) (st' : σ),
      O st = o₀ →
      p ∈ fs →
      runResolver step fs st conflict resolved = some (C, R, st') →
      p ∈ C := by
  intro fs
  induction fs with
  | nil => intro st conflict resolved C R st' _ hp; simp at hp
  | cons f fs ih =>
    intro st conflict resolved C R st' hO hp h
    by_cases hfp : f = p
    · subst hfp
      have hstep := hvisit st hO
      simp only [runResolver, hstep] at h
      exact runResolver_conflict_mono step fs st (conflict ++ [f]) resolved C R st' h f
        (by simp)
    · have hp' : p ∈ fs := by
        rcases List.mem_cons.mp hp with h1 | h2
        · exact absurd h1.symm hfp
        · exact h2
      cases hstep : step st f with
      | none => simp [runResolver, hstep] at h
      | some sv =>
        obtain ⟨st1, v⟩ := sv
        have hO1 : O st1 = o₀ := (hloc st f st1 v hfp hstep) ▸ hO
        cases v with
        | act =>
          simp only [runResolver, hstep] at h
          exact ih st1 conflict resolved C R st' hO1 hp' h
        | conf =>
          simp only [runResolver, hstep] at h
          exact ih st1 (conflict ++ [f]) resolved C R st' hO1 hp' h
        | res =>
          simp only [runResolver, hstep] at h
          exact ih st1 conflict (resolved ++ [f]) C R st' hO1 hp' h

theorem runResolver_main {σ : Type} (step : σ → Fname → Option (σ × Verdict))
    (fs : List Fname) (st : σ) (C R : List Fname) (st' : σ)
    (hnd : fs.Nodup) (h : runResolver step fs st [] [] = some (C, R, st')) :
    (∀ x, ¬(x ∈ C ∧ x ∈ R)) ∧ (∀ x ∈ C, x ∈ fs) ∧ (∀ x ∈ R, x ∈ fs) := by
  refine ⟨runResolver_disjoint step fs st [] [] C R st' hnd (by simp) (by simp) h, ?_, ?_⟩
  · intro x hx
    rcases runResolver_conflict_sub step fs st [] [] C R st' h x hx with h1 | h2
    · simp at h1
    · exact h2
  · intro x hx
    rcases runResolver_resolved_sub step fs st [] [] C R st' h x hx with h1 | h2
    · simp at h1
    · exact h2

/-- C10: for every input triple and candidate set, each of the four resolvers
returns a conflict set and a resolved set that are disjoint from each other
and both subsets of the candidate set it was given (whenever the loop
completes without a KeyError; candidate sets, being Python sets, have no
duplicates). -/
theorem C10_resolver_conflict_resolved_sets :
    (∀ (current locl mas : Inventory) (push : List Fname) (hard : Bool)
       (C R : List Fname) (st : Inventory × Inventory),
      push.Nodup →
      resolve_push_conflicts current locl mas push hard = some (C, R, st) →
      (∀ x, ¬(x ∈ C ∧ x ∈ R)) ∧ (∀ x ∈ C, x ∈ push) ∧ (∀ x ∈ R, x ∈ push)) ∧
    (∀ (mas locl : Inventory) (purge : List Fname) (hard : Bool)
       (C R : List Fname) (st : Inventory × Inventory),
      purge.Nodup →
      resolve_purge_conflicts mas locl purge hard = some (C, R, st) →
      (∀ x, ¬(x ∈ C ∧ x ∈ R)) ∧ (∀ x ∈ C, x ∈ purge) ∧ (∀ x ∈ R, x ∈ purge)) ∧
    (∀ (current locl mas : Inventory) (pull : List Fname) (hard : Bool)
       (C R : List Fname) (st : Inventory),
      pull.Nodup →
      resolve_pull_conflicts current locl mas pull hard = some (C, R, st) →
      (∀ x, ¬(x ∈ C ∧ x ∈ R)) ∧ (∀ x ∈ C, x ∈ pull) ∧ (∀ x ∈ R, x ∈ pull)) ∧
    (∀ (current locl : Inventory) (kill : List Fname) (hard : Bool)
       (C R : List Fname) (st : Inventory),
      kill.Nodup →
      resolve_kill_conflicts current locl kill hard = some (C, R, st) →
      (∀ x, ¬(x ∈ C ∧ x ∈ R)) ∧ (∀ x ∈ C, x ∈ kill) ∧ (∀ x ∈ R, x ∈ kill)) := by
  refine ⟨?_, ?_, ?_, ?_⟩
  · intro current locl mas push hard C R st hnd h
    exact runResolver_main (push_step current hard) push (locl, mas) C R st hnd h
  · intro mas locl purge hard C R st hnd h
    exact runResolver_main (purge_step hard) purge (mas, locl) C R st hnd h
  · intro current locl mas pull hard C R st hnd h
    exact runResolver_main (pull_step current mas hard) pull locl C R st hnd h
  · intro current locl kill hard C R st hnd h
    exact runResolver_main (kill_step current hard) kill locl C R st hnd h

theorem C10_resolver_conflict_resolved_sets_witness :
    (∀ x, ¬(x ∈ ([] : List Fname) ∧ x ∈ ([] : List Fname))) ∧
    (∀ x ∈ ([] : List Fname), x ∈ [['a']]) ∧
    (∀ x ∈ ([] : List Fname), x ∈ [['a']]) :=
  C10_resolver_conflict_resolved_sets.1 [(['a'], ['1'])] [] [] [['a']] true
    [] [] ([(['a'], ['1'])], [(['a'], ['1'])]) (by decide) rfl

theorem purge_step_preserves_ne {hard : Bool} {p f : Fname}
    {st st' : Inventory × Inventory} {v : Verdict}
    (hfp : f ≠ p) (h : purge_step hard st f = some (st', v)) :
    st'.1.find? p = st.1.find? p ∧ st'.2.find? p = st.2.find? p := by
  simp only [purge_step] at h
  by_cases hc : st.1.contains f = true
  · rw [if_pos hc] at h
    cases hfind : st.2.find? f with
    | none => simp [hfind] at h
    | some l =>
      simp only [hfind] at h
      by_cases hne2 : st.1.find? f ≠ some l
      · rw [if_pos hne2] at h
        simp only [Option.some.injEq, Prod.mk.injEq] at h
        rw [← h.1]
        exact ⟨rfl, rfl⟩
      · rw [if_neg hne2] at h
        by_cases hh : hard = true
        · rw [if_pos hh] at h
          simp only [Option.some.injEq, Prod.mk.injEq] at h
          rw [← h.1]
          exact ⟨Inventory.find?_erase_ne hfp, Inventory.find?_erase_ne hfp⟩
        · rw [if_neg hh] at h
          simp only [Option.some.injEq, Prod.mk.injEq] at h
          rw [← h.1]
          exact ⟨rfl, rfl⟩
  · rw [if_neg hc] at h
    unfold Inventory.pop at h
    by_cases hc2 : st.2.contains f = true
    · rw [if_pos hc2] at h
      simp only [Option.some.injEq, Prod.mk.injEq] at h
      rw [← h.1]
      exact ⟨rfl, Inventory.find?_erase_ne hfp⟩
    · rw [if_neg hc2] at h
      simp at h

theorem purge_step_visit {hard : Bool} {p : Fname} {m₀ l : Fp}
    (hne : m₀ ≠ l) (st₁ : Inventory × Inventory)
    (h1 : st₁.1.find? p = some m₀) (h2 : st₁.2.find? p = some l) :
    purge_step hard st₁ p = some (st₁, Verdict.conf) := by
  have hcont : st₁.1.contains p = true := by
    simp [Inventory.contains, h1]
  have hnel : st₁.1.find? p ≠ some l := by
    rw [h1]
    intro hc
    exact hne (Option.some.inj hc)
  simp only [purge_step]
  rw [if_pos hcont]
  simp only [h2]
  rw [if_pos hnel]

/-- C3: for every path `p` in the purge candidate set (`p ∈ local`,
`p ∉ current`) with `p ∈ master` and `master[p] ≠ local[p]`, the purge
resolver classifies `p` as a conflict and leaves both `local[p]` and
`master[p]` unchanged — it never deletes `p` from master in that case. -/
theorem C3_purge_conflict_keeps_entries
    (mas locl : Inventory) (purge : List Fname) (hard : Bool) (p : Fname)
    (C R : List Fname) (mas' locl' : Inventory)
    (hp : p ∈ purge) (hl : p ∈ locl.keys) (hm : p ∈ mas.keys)
    (hne : mas.find? p ≠ locl.find? p)
    (hrun : resolve_purge_conflicts mas locl purge hard = some (C, R, (mas', locl'))) :
    p ∈ C ∧ mas'.find? p = mas.find? p ∧ locl'.find? p = locl.find? p := by
  obtain ⟨m₀, hm₀⟩ := Option.isSome_iff_exists.mp (Inventory.find?_isSome.mpr hm)
  obtain ⟨l₀, hl₀⟩ := Option.isSome_iff_exists.mp (Inventory.find?_isSome.mpr hl)
  have hnev : m₀ ≠ l₀ := by
    intro hc
    exact hne (by rw [hm₀, hl₀, hc])
  have hloc : ∀ (st : Inventory × Inventory) (f : Fname)
      (st' : Inventory × Inventory) (v : Verdict), f ≠ p →
      purge_step hard st f = some (st', v) →
      (st'.1.find? p, st'.2.find? p) = (st.1.find? p, st.2.find? p) := by
    intro st f st' v hfp h
    obtain ⟨ha, hb⟩ := purge_step_preserves_ne hfp h
    rw [ha, hb]
  have hvisit : ∀ st₁ : Inventory × Inventory,
      (st₁.1.find? p, st₁.2.find? p) = (some m₀, some l₀) →
      purge_step hard st₁ p = some (st₁, Verdict.conf) := by
    intro st₁ hO
    have hO1 : st₁.1.find? p = some m₀ := congrArg Prod.fst hO
    have hO2 : st₁.2.find? p = some l₀ := congrArg Prod.snd hO
    exact purge_step_visit hnev st₁ hO1 hO2
  have hO0 : ((mas, locl).1.find? p, (mas, locl).2.find? p) =
      (some m₀, some l₀) := by
    simp [hm₀, hl₀]
  have hpres := runResolver_preserve_point (purge_step hard) p
    (fun st => (st.1.find? p, st.2.find? p)) (some m₀, some l₀)
    hloc hvisit purge (mas, locl) [] [] C R (mas', locl') hO0 hrun
  have hpr1 : mas'.find? p = some m₀ := congrArg Prod.fst hpres
  have hpr2 : locl'.find? p = some l₀ := congrArg Prod.snd hpres
  refine ⟨?_, ?_, ?_⟩
  · exact runResolver_conflict_point (purge_step hard) p
      (fun st => (st.1.find? p, st.2.find? p)) (some m₀, some l₀)
      hloc hvisit purge (mas, locl) [] [] C R (mas', locl') hO0 hp hrun
  · rw [hpr1, hm₀]
  · rw [hpr2, hl₀]

theorem C3_purge_conflict_keeps_entries_witness :
    ['a'] ∈ [['a']] ∧
    Inventory.find? [(['a'], ['m'])] ['a'] = Inventory.find? [(['a'], ['m'])] ['a'] ∧
    Inventory.find? [(['a'], ['l'])] ['a'] = Inventory.find? [(['a'], ['l'])] ['a'] :=
  C3_purge_conflict_keeps_entries [(['a'], ['m'])] [(['a'], ['l'])] [['a']] true
    ['a'] [['a']] [] [(['a'], ['m'])] [(['a'], ['l'])]
    (by decide) (by decide) (by decide) (by decide) rfl

/-! ## Inventory serialization (`write_inventory` / `read_inventory`)

The on-disk form is one `path<TAB>fingerprint<LF>` line per entry, keys
ascending.  `read_inventory` iterates over the lines of the file,
`line.strip().split('\t')`, and stores `row[0] ↦ row[1]`. -/

def isPySpace (c : Char) : Bool :=
  c = ' ' || c = '\t' || c = '\n' || c = '\r' || c = '\x0b' || c = '\x0c'

/-- Python `str.strip()` (ASCII whitespace). -/
def pyStrip (s : PyStr) : PyStr :=
  ((s.dropWhile isPySpace).reverse.dropWhile isPySpace).reverse

/-- Python `str.split(sep)` for a one-character separator. -/
def splitChar (sep : Char) : PyStr → List PyStr
  | [] => [[]]
  | c :: rest =>
    if c = sep then [] :: splitChar sep rest
    else
      match splitChar sep rest with
      | [] => [[c]]
      | x :: xs => (c :: x) :: xs

/-- The lines yielded by iterating over an open text file: the chunks
between newlines, except that a trailing newline produces no final empty
line. -/
def fileLines (s : PyStr) : List PyStr :=
  let parts := splitChar '\n' s
  if parts.getLast? = some [] then parts.dropLast else parts

/-- One iteration of the `read_inventory` loop:
`row = line.strip().split('\t'); out[row[0]] = row[1]`.
`none` models the `IndexError` on a line that splits into fewer than
two fields. -/
def parseLine (m : Inventory) (line : PyStr) : Option Inventory :=
  match splitChar '\t' (pyStrip line) with
  | a :: b :: _ => some (m.set a b)
  | _ => none

/-- `read_inventory` applied to the contents of an existing file. -/
def read_inventory (s : PyStr) : Option Inventory :=
  (fileLines s).foldlM parseLine []

/-- Python `<` on strings: code-point lexicographic order. -/
def pyLt : PyStr → PyStr → Bool
  | [], [] => false
  | [], _ :: _ => true
  | _ :: _, [] => false
  | a :: as, b :: bs =>
    if a.toNat < b.toNat then true
    else if b.toNat < a.toNat then false
    else pyLt as bs

def pyLe (a b : PyStr) : Bool := !pyLt b a

def pyInsert (x : PyStr) : List PyStr → List PyStr
  | [] => [x]
  | y :: ys => if pyLe x y then x :: y :: ys else y :: pyInsert x ys

/-- Python `sorted` on strings: modelled as a stable insertion sort,
extensionally equal to any stable sort by `pyLe`. -/
def pySorted (l : List PyStr) : List PyStr := l.foldr pyInsert []

/-- `write_inventory`: `for d in sorted(x.keys()): write(d + '\t' + x[d] + '\n')`. -/
def write_inventory (x : Inventory) : PyStr :=
  ((pySorted x.keys).map
    (fun d => d ++ '\t' :: (((x.find? d).getD []) ++ ['\n']))).flatten

/-- The concatenated lines of an inventory in its on-file order (used to
describe a well-formed serialized file). -/
def serializeF (l : Inventory) : PyStr :=
  (l.map (fun e => e.1 ++ '\t' :: (e.2 ++ ['\n']))).flatten

/-- A well-formed serialized entry per §4.2: non-empty path and
fingerprint, neither containing a tab or newline, and neither starting
(path) nor ending (fingerprint) in whitespace that `strip()` would eat. -/
def entryWF (e : Fname × Fp) : Prop :=
  e.1 ≠ [] ∧ e.2 ≠ [] ∧ '\t' ∉ e.1 ∧ '\t' ∉ e.2 ∧ '\n' ∉ e.1 ∧ '\n' ∉ e.2 ∧
  isPySpace (e.1.headD ' ') = false ∧ isPySpace (e.2.getLastD ' ') = false

instance : DecidablePred entryWF := by
  intro e
  unfold entryWF
  infer_instance

/-! ### Basic lemmas about the string helpers -/

theorem dropWhile_head_false {p : Char → Bool} :
    ∀ (s : PyStr), (∀ c, s.head? = some c → p c = false) → s.dropWhile p = s := by
  intro s h
  cases s with
  | nil => rfl
  | cons a rest =>
    have := h a rfl
    simp [List.dropWhile, this]

theorem head_false_of_headD {s : PyStr} {p : Char → Bool}
    (h : s ≠ []) (hd : p (s.headD ' ') = false) :
    ∀ c, s.head? = some c → p c = false := by
  cases s with
  | nil => exact absurd rfl h
  | cons a t =>
    intro c hc
    have : c = a := by simpa using hc.symm
    simpa [this] using hd

theorem getLast_false_of_getLastD {s : PyStr} {p : Char → Bool}
    (h : s ≠ []) (hd : p (s.getLastD ' ') = false) :
    ∀ c, s.getLast? = some c → p c = false := by
  intro c hc
  have : s.getLastD ' ' = c := by
    rw [List.getLastD_eq_getLast?, hc]
    rfl
  rwa [this] at hd

theorem pyStrip_eq_self {s : PyStr}
    (h1 : ∀ c, s.head? = some c → isPySpace c = false)
    (h2 : ∀ c, s.getLast? = some c → isPySpace c = false) :
    pyStrip s = s := by
  unfold pyStrip
  rw [dropWhile_head_false s h1]
  rw [dropWhile_head_false s.reverse
    (fun c hc => h2 c (by rwa [List.head?_reverse] at hc))]
  exact List.reverse_reverse s

theorem pyStrip_append_space {s : PyStr} {c : Char}
    (hs : s ≠ []) (hc : isPySpace c = true)
    (h1 : ∀ d, s.head? = some d → isPySpace d = false)
    (h2 : ∀ d, s.getLast? = some d → isPySpace d = false) :
    pyStrip (s ++ [c]) = s := by
  unfold pyStrip
  have hh : ∀ d, (s ++ [c]).head? = some d → isPySpace d = false := by
    intro d hd
    cases s with
    | nil => exact absurd rfl hs
    | cons a t =>
      have : d = a := by simpa using hd.symm
      exact this ▸ h1 a rfl
  rw [dropWhile_head_false (s ++ [c]) hh]
  rw [List.reverse_append]
  show ((([c].reverse ++ s.reverse).dropWhile isPySpace)).reverse = s
  simp only [List.reverse_cons, List.reverse_nil, List.nil_append,
    List.singleton_append]
  rw [List.dropWhile]
  simp only [hc]
  rw [dropWhile_head_false s.reverse
    (fun d hd => h2 d (by rwa [List.head?_reverse] at hd))]
  exact List.reverse_reverse s

theorem splitChar_ne_nil (sep : Char) : ∀ s : PyStr, splitChar sep s ≠ [] := by
  intro s
  cases s with
  | nil => simp [splitChar]
  | cons c rest =>
    by_cases h : c = sep
    · simp [splitChar, h]
    · simp only [splitChar, if_neg h]
      cases splitChar sep rest <;> simp

theorem splitChar_not_mem {sep : Char} :
    ∀ {s : PyStr}, sep ∉ s → splitChar sep s = [s] := by
  intro s
  induction s with
  | nil => intro _; rfl
  | cons c rest ih =>
    intro h
    have hc : ¬(c = sep) := fun hcs => h (by simp [hcs])
    have hrest : sep ∉ rest := fun hr => h (List.mem_cons_of_mem c hr)
    simp only [splitChar, if_neg hc, ih hrest]

theorem splitChar_append {sep : Char} {a : PyStr} (h : sep ∉ a) (b : PyStr) :
    splitChar sep (a ++ sep :: b) = a :: splitChar sep b := by
  induction a with
  | nil => simp [splitChar]
  | cons c rest ih =>
    have hc : ¬(c = sep) := fun hcs => h (by simp [hcs])
    have hrest : sep ∉ rest := fun hr => h (List.mem_cons_of_mem c hr)
    simp only [List.cons_append, splitChar, if_neg hc, List.append_eq, ih hrest]

theorem splitChar_length_ge_two {sep : Char} :
    ∀ {s : PyStr}, sep ∈ s → 2 ≤ (splitChar sep s).length := by
  intro s
  induction s with
  | nil => intro h; simp at h
  | cons c rest ih =>
    intro h
    by_cases hc : c = sep
    · simp only [splitChar, if_pos hc, List.length_cons]
      have := splitChar_ne_nil sep rest
      have : 1 ≤ (splitChar sep rest).length := by
        cases hsp : splitChar sep rest with
        | nil => exact absurd hsp (splitChar_ne_nil sep rest)
        | cons x xs => simp
      omega
    · have hrest : sep ∈ rest := by
        rcases List.mem_cons.mp h with h1 | h2
        · exact absurd h1.symm hc
        · exact h2
      simp only [splitChar, if_neg hc]
      cases hsp : splitChar sep rest with
      | nil => exact absurd hsp (splitChar_ne_nil sep rest)
      | cons x xs =>
        have := ih hrest
        rw [hsp] at this
        simpa using this

theorem getLast?_cons_of_ne_nil {α : Type} (a : α) {l : List α} (h : l ≠ []) :
    (a :: l).getLast? = l.getLast? := by
  cases l with
  | nil => exact absurd rfl h
  | cons b t => exact List.getLast?_cons_cons

theorem dropLast_cons_of_ne_nil' {α : Type} (a : α) {l : List α} (h : l ≠ []) :
    (a :: l).dropLast = a :: l.dropLast := by
  cases l with
  | nil => exact absurd rfl h
  | cons b t => rfl

theorem fileLines_nil : fileLines [] = [] := by
  simp [fileLines, splitChar]

theorem getLast?_append_right {a b : PyStr} (h : b ≠ []) :
    (a ++ b).getLast? = b.getLast? := by
  induction a with
  | nil => rfl
  | cons c t ih =>
    rw [List.cons_append, getLast?_cons_of_ne_nil c (by simp [h]), ih]

theorem fileLines_cons {line rest : PyStr} (h : '\n' ∉ line) :
    fileLines (line ++ '\n' :: rest) = line :: fileLines rest := by
  have hsp := splitChar_append h rest
  simp only [fileLines, hsp]
  have hne : splitChar '\n' rest ≠ [] := splitChar_ne_nil '\n' rest
  rw [getLast?_cons_of_ne_nil line hne]
  by_cases hl : (splitChar '\n' rest).getLast? = some ([] : PyStr)
  · rw [if_pos hl, if_pos hl, dropLast_cons_of_ne_nil' line hne]
  · rw [if_neg hl, if_neg hl]

theorem set_fresh {m : Inventory} {p : Fname} {v : Fp} (h : m.find? p = none) :
    m.set p v = m ++ [(p, v)] := by
  induction m with
  | nil => rfl
  | cons e rest ih =>
    by_cases he : e.1 = p
    · simp [Inventory.find?, he] at h
    · simp only [Inventory.find?, if_neg he] at h
      simp [Inventory.set, he, ih h]

theorem find?_append_none {a : Inventory} {p : Fname} (b : Inventory)
    (ha : a.find? p = none) : (a ++ b).find? p = b.find? p := by
  induction a with
  | nil => rfl
  | cons e rest ih =>
    by_cases he : e.1 = p
    · simp [Inventory.find?, he] at ha
    · simp only [Inventory.find?, if_neg he] at ha
      simp [Inventory.find?, he, ih ha]

theorem parseLine_entry {m : Inventory} {e : Fname × Fp} (hwf : entryWF e) :
    parseLine m (e.1 ++ '\t' :: e.2) = some (m.set e.1 e.2) := by
  obtain ⟨h1, h2, h3, h4, _, _, h7, h8⟩ := hwf
  have hstrip : pyStrip (e.1 ++ '\t' :: e.2) = e.1 ++ '\t' :: e.2 := by
    apply pyStrip_eq_self
    · intro c hc
      cases hE : e.1 with
      | nil => exact absurd hE h1
      | cons a t =>
        rw [hE] at hc
        have hca : c = a := by simpa using hc.symm
        have := head_false_of_headD h1 h7 a (by rw [hE]; rfl)
        exact hca ▸ this
    · intro c hc
      have hgl : (e.1 ++ '\t' :: e.2).getLast? = e.2.getLast? := by
        rw [getLast?_append_right (by simp)]
        exact getLast?_cons_of_ne_nil '\t' h2
      rw [hgl] at hc
      exact getLast_false_of_getLastD h2 h8 c hc
  unfold parseLine
  rw [hstrip, splitChar_append h3 e.2, splitChar_not_mem h4]

theorem read_serialize_aux :
    ∀ (l : Inventory) (acc : Inventory),
      (∀ e ∈ l, entryWF e) →
      l.keys.Nodup →
      (∀ p ∈ l.keys, acc.find? p = none) →
      (fileLines (serializeF l)).foldlM parseLine acc = some (acc ++ l) := by
  intro l
  induction l with
  | nil =>
    intro acc _ _ _
    simp [serializeF, fileLines_nil]
  | cons e rest ih =>
    intro acc hwf hnd hfresh
    have hwfe : entryWF e := hwf e (by simp)
    obtain ⟨h1, h2, h3, h4, h5, h6, h7, h8⟩ := hwfe
    have hkeys : Inventory.keys (e :: rest) = e.1 :: Inventory.keys rest := rfl
    have hndc := List.nodup_cons.mp (hkeys ▸ hnd)
    have hassoc : serializeF (e :: rest) =
        (e.1 ++ '\t' :: e.2) ++ '\n' :: serializeF rest := by
      simp [serializeF]
    have hnl : '\n' ∉ e.1 ++ '\t' :: e.2 := by
      intro hmem
      rcases List.mem_append.mp hmem with hA | hB
      · exact h5 hA
      · rcases List.mem_cons.mp hB with hB1 | hB2
        · exact absurd hB1 (by decide)
        · exact h6 hB2
    rw [hassoc, fileLines_cons hnl, List.foldlM_cons]
    have hfr : acc.find? e.1 = none := hfresh e.1 (by simp [hkeys])
    rw [parseLine_entry ⟨h1, h2, h3, h4, h5, h6, h7, h8⟩, set_fresh hfr]
    have htail := ih (acc ++ [e]) (fun x hx => hwf x (List.mem_cons_of_mem e hx))
      hndc.2 ?_
    · show List.foldlM parseLine (acc ++ [e]) (fileLines (serializeF rest)) =
        some (acc ++ e :: rest)
      rw [htail]
      simp
    · intro p hp
      have hpe : p ≠ e.1 := by
        intro hc
        exact hndc.1 (hc ▸ hp)
      have hacc : acc.find? p = none := hfresh p (by simp [hkeys, hp])
      rw [find?_append_none [e] hacc]
      simp [Inventory.find?, Ne.symm hpe]

theorem pyLt_asymm : ∀ {a b : PyStr}, pyLt a b = true → pyLt b a = false := by
  intro a
  induction a with
  | nil =>
    intro b h
    cases b with
    | nil => simp [pyLt] at h
    | cons c t => simp [pyLt]
  | cons c t ih =>
    intro b h
    cases b with
    | nil => simp [pyLt] at h
    | cons d u =>
      simp only [pyLt] at h ⊢
      by_cases h1 : c.toNat < d.toNat
      · have h2 : ¬(d.toNat < c.toNat) := by omega
        rw [if_neg h2, if_pos h1]
      · rw [if_neg h1] at h
        by_cases h2 : d.toNat < c.toNat
        · rw [if_pos h2] at h
          exact absurd h (by simp)
        · rw [if_neg h2] at h
          rw [if_neg h2, if_neg h1]
          exact ih h

theorem pyLt_ne : ∀ {a b : PyStr}, pyLt a b = true → a ≠ b := by
  intro a
  induction a with
  | nil =>
    intro b h
    cases b with
    | nil => simp [pyLt] at h
    | cons c t => simp
  | cons c t ih =>
    intro b h
    cases b with
    | nil => simp [pyLt] at h
    | cons d u =>
      simp only [pyLt] at h
      by_cases h1 : c.toNat < d.toNat
      · intro hc
        injection hc with hc1 hc2
        rw [hc1] at h1
        omega
      · rw [if_neg h1] at h
        by_cases h2 : d.toNat < c.toNat
        · rw [if_pos h2] at h
          exact absurd h (by simp)
        · rw [if_neg h2] at h
          intro hc
          injection hc with hc1 hc2
          exact ih h hc2

theorem pyInsert_lt_head {x : PyStr} :
    ∀ {ys : List PyStr}, (∀ y ∈ ys, pyLt x y = true) → pyInsert x ys = x :: ys := by
  intro ys h
  cases ys with
  | nil => rfl
  | cons y t =>
    have hxy : pyLt x y = true := h y (by simp)
    have hle : pyLe x y = true := by
      simp [pyLe, pyLt_asymm hxy]
    simp [pyInsert, hle]

theorem pySorted_of_sorted :
    ∀ {l : List PyStr}, l.Pairwise (fun a b => pyLt a b = true) → pySorted l = l := by
  intro l
  induction l with
  | nil => intro _; rfl
  | cons k ks ih =>
    intro h
    have hp := List.pairwise_cons.mp h
    show pyInsert k (pySorted ks) = k :: ks
    rw [ih hp.2]
    exact pyInsert_lt_head hp.1

theorem find?_cons_self {e : Fname × Fp} {rest : Inventory} :
    Inventory.find? (e :: rest) e.1 = some e.2 := by
  simp [Inventory.find?]

theorem write_inventory_eq_serializeF {l : Inventory}
    (hs : l.keys.Pairwise (fun a b => pyLt a b = true)) :
    write_inventory l = serializeF l := by
  unfold write_inventory serializeF
  rw [pySorted_of_sorted hs]
  have hnd : l.keys.Nodup := hs.imp (fun h => pyLt_ne h)
  clear hs
  induction l with
  | nil => rfl
  | cons e rest ih =>
    have hkeys : Inventory.keys (e :: rest) = e.1 :: Inventory.keys rest := rfl
    rw [hkeys] at hnd ⊢
    have hndc := List.nodup_cons.mp hnd
    simp only [List.map_cons, List.flatten_cons]
    rw [find?_cons_self]
    have hmap : (Inventory.keys rest).map
        (fun d => d ++ '\t' :: (((Inventory.find? (e :: rest) d).getD []) ++ ['\n'])) =
        (Inventory.keys rest).map
        (fun d => d ++ '\t' :: (((Inventory.find? rest d).getD []) ++ ['\n'])) := by
      apply List.map_congr_left
      intro d hd
      have hne : e.1 ≠ d := fun hc => hndc.1 (hc ▸ hd)
      rw [show Inventory.find? (e :: rest) d = Inventory.find? rest d by
        simp [Inventory.find?, hne]]
    rw [hmap, ih hndc.2]
    rfl

/-- C6: for every serialized inventory file that is sorted ascending by
path and well-formed per §4.2 — i.e. every file of the form `serializeF l`
for a strictly key-sorted list `l` of well-formed entries —
`write_inventory (read_inventory f)` reproduces `f` byte-exactly. -/
theorem C6_round_trip (l : Inventory)
    (hwf : ∀ e ∈ l, entryWF e)
    (hs : l.keys.Pairwise (fun a b => pyLt a b = true)) :
    (read_inventory (serializeF l)).map write_inventory = some (serializeF l) ∧
    read_inventory (serializeF l) = some l ∧
    write_inventory l = serializeF l := by
  have hnd : l.keys.Nodup := hs.imp (fun h => pyLt_ne h)
  have hread : read_inventory (serializeF l) = some l := by
    unfold read_inventory
    have := read_serialize_aux l [] hwf hnd (fun p _ => rfl)
    simpa using this
  have hwrite := write_inventory_eq_serializeF hs
  refine ⟨?_, hread, hwrite⟩
  rw [hread]
  simp [hwrite]

theorem C6_round_trip_witness :
    (read_inventory (serializeF [(['a'], ['x']), (['b'], ['y'])])).map write_inventory =
      some (serializeF [(['a'], ['x']), (['b'], ['y'])]) ∧
    read_inventory (serializeF [(['a'], ['x']), (['b'], ['y'])]) =
      some [(['a'], ['x']), (['b'], ['y'])] ∧
    write_inventory [(['a'], ['x']), (['b'], ['y'])] =
      serializeF [(['a'], ['x']), (['b'], ['y'])] :=
  C6_round_trip [(['a'], ['x']), (['b'], ['y'])] (by decide) (by decide)

/-- C7 as stated is false at this input: a line with two tabs (not
"exactly one") is accepted rather than rejected — the parser keeps the
first two fields. -/
theorem C7_two_tab_line_accepted :
    ("a\tb\tc".toList).count '\t' = 2 ∧
    read_inventory ("a\tb\tc\n".toList) = some [(['a'], ['b'])] := by
  exact ⟨by decide, by decide⟩

theorem head?_append_left {a : PyStr} (b : PyStr) (h : a ≠ []) :
    (a ++ b).head? = a.head? := by
  cases a with
  | nil => exact absurd rfl h
  | cons c t => rfl

theorem parseLine_entry_cr {m : Inventory} {e : Fname × Fp} (hwf : entryWF e) :
    parseLine m ((e.1 ++ '\t' :: e.2) ++ ['\r']) = some (m.set e.1 e.2) := by
  obtain ⟨h1, h2, h3, h4, h5, h6, h7, h8⟩ := hwf
  have hh : ∀ c, (e.1 ++ '\t' :: e.2).head? = some c → isPySpace c = false := by
    intro c hc
    rw [head?_append_left _ h1] at hc
    exact head_false_of_headD h1 h7 c hc
  have hg : ∀ c, (e.1 ++ '\t' :: e.2).getLast? = some c → isPySpace c = false := by
    intro c hc
    rw [getLast?_append_right (by simp), getLast?_cons_of_ne_nil '\t' h2] at hc
    exact getLast_false_of_getLastD h2 h8 c hc
  have hstrip : pyStrip ((e.1 ++ '\t' :: e.2) ++ ['\r']) = e.1 ++ '\t' :: e.2 := by
    apply pyStrip_append_space (by simp) (by decide) hh hg
  unfold parseLine
  rw [hstrip, splitChar_append h3 e.2, splitChar_not_mem h4]

/-- C7 amended: the parser accepts `path<TAB>fingerprint` with an optional
trailing carriage return, and signals an error exactly on the lines that
contain no tab after stripping surrounding whitespace; lines with two or
more tabs are accepted (keeping the first two fields), not rejected. -/
theorem C7_parser_amended :
    (∀ e : Fname × Fp, entryWF e →
      read_inventory (e.1 ++ '\t' :: (e.2 ++ ['\r', '\n'])) = some [(e.1, e.2)]) ∧
    (∀ line : PyStr, '\n' ∉ line →
      (read_inventory (line ++ ['\n']) = none ↔ '\t' ∉ pyStrip line)) := by
  constructor
  · intro e hwf
    obtain ⟨h1, h2, h3, h4, h5, h6, h7, h8⟩ := hwf
    have hline : e.1 ++ '\t' :: (e.2 ++ ['\r', '\n']) =
        ((e.1 ++ '\t' :: e.2) ++ ['\r']) ++ '\n' :: [] := by
      simp
    have hnl : '\n' ∉ (e.1 ++ '\t' :: e.2) ++ ['\r'] := by
      intro hmem
      rcases List.mem_append.mp hmem with hA | hB
      · rcases List.mem_append.mp hA with hC | hD
        · exact h5 hC
        · rcases List.mem_cons.mp hD with hD1 | hD2
          · exact absurd hD1 (by decide)
          · exact h6 hD2
      · exact absurd hB (by decide)
    unfold read_inventory
    rw [hline, fileLines_cons hnl, fileLines_nil, List.foldlM_cons,
      parseLine_entry_cr ⟨h1, h2, h3, h4, h5, h6, h7, h8⟩]
    rfl
  · intro line hnl
    unfold read_inventory
    rw [show line ++ ['\n'] = line ++ '\n' :: [] from rfl,
      fileLines_cons hnl, fileLines_nil, List.foldlM_cons]
    unfold parseLine
    cases hsp : splitChar '\t' (pyStrip line) with
    | nil => exact absurd hsp (splitChar_ne_nil '\t' (pyStrip line))
    | cons a t =>
      cases t with
      | nil =>
        constructor
        · intro _ hmem
          have h2 := splitChar_length_ge_two hmem
          rw [hsp] at h2
          simp at h2
        · intro _
          rfl
      | cons b u =>
        constructor
        · intro hc
          simp at hc
        · intro hnot
          exfalso
          have hone := splitChar_not_mem hnot
          rw [hsp] at hone
          simp at hone

theorem C7_parser_amended_witness :
    read_inventory (['a'] ++ '\t' :: (['b'] ++ ['\r', '\n'])) = some [(['a'], ['b'])] ∧
    (read_inventory (['a', 'b'] ++ ['\n']) = none ↔ '\t' ∉ pyStrip ['a', 'b']) :=
  ⟨C7_parser_amended.1 (['a'], ['b']) (by decide),
   C7_parser_amended.2 ['a', 'b'] (by decide)⟩

/-! ## Dict invariants needed for `status -r` -/

theorem keys_set_contains {m : Inventory} {p : Fname} {v : Fp}
    (h : m.contains p = true) : (m.set p v).keys = m.keys := by
  induction m with
  | nil => simp [Inventory.contains, Inventory.find?] at h
  | cons e rest ih =>
    by_cases he : e.1 = p
    · simp [Inventory.set, he, Inventory.keys]
    · have h' : Inventory.contains rest p = true := by
        simpa [Inventory.contains, Inventory.find?, he] using h
      simp only [Inventory.set, if_neg he]
      show e.1 :: Inventory.keys (Inventory.set rest p v) = e.1 :: Inventory.keys rest
      rw [ih h']

theorem keys_set_not_contains {m : Inventory} {p : Fname} {v : Fp}
    (h : m.contains p = false) : (m.set p v).keys = m.keys ++ [p] := by
  have hf : m.find? p = none := by
    have := h
    unfold Inventory.contains at this
    exact Option.not_isSome_iff_eq_none.mp (by simp [this])
  rw [set_fresh hf]
  simp [Inventory.keys]

theorem set_keys_nodup {m : Inventory} {p : Fname} {v : Fp}
    (h : m.keys.Nodup) : (m.set p v).keys.Nodup := by
  by_cases hc : m.contains p = true
  · rw [keys_set_contains hc]
    exact h
  · rw [keys_set_not_contains (by simpa using hc)]
    have hp : p ∉ m.keys := by
      rw [← Inventory.contains_false_iff]
      simpa using hc
    simp [List.nodup_append, h, hp]

theorem parse_fold_nodup :
    ∀ (lines : List PyStr) (acc out : Inventory),
      acc.keys.Nodup →
      lines.foldlM parseLine acc = some out →
      out.keys.Nodup := by
  intro lines
  induction lines with
  | nil =>
    intro acc out h heq
    simp only [List.foldlM_nil, Option.pure_def, Option.some.injEq] at heq
    exact heq ▸ h
  | cons line lines ih =>
    intro acc out h heq
    rw [List.foldlM_cons] at heq
    cases hpl : parseLine acc line with
    | none => rw [hpl] at heq; simp at heq
    | some acc' =>
      rw [hpl] at heq
      have hset : ∃ a b, acc' = acc.set a b := by
        unfold parseLine at hpl
        cases hsp : splitChar '\t' (pyStrip line) with
        | nil => rw [hsp] at hpl; simp at hpl
        | cons a t =>
          cases t with
          | nil => rw [hsp] at hpl; simp at hpl
          | cons b u =>
            rw [hsp] at hpl
            simp only [Option.some.injEq] at hpl
            exact ⟨a, b, hpl.symm⟩
      obtain ⟨a, b, rfl⟩ := hset
      exact ih _ out (set_keys_nodup h) (by simpa using heq)

theorem read_inventory_nodup {disk : PyStr} {locl : Inventory}
    (h : read_inventory disk = some locl) : locl.keys.Nodup := by
  unfold read_inventory at h
  exact parse_fold_nodup (fileLines disk) [] locl (by simp [Inventory.keys]) h

theorem mem_keys_of_mem {m : Inventory} {e : Fname × Fp} (h : e ∈ m) :
    e.1 ∈ m.keys := List.mem_map_of_mem Prod.fst h

theorem erase_eq_filter {m : Inventory} (hnd : m.keys.Nodup) (p : Fname) :
    m.erase p = m.filter (fun e => !(e.1 = p : Bool)) := by
  induction m with
  | nil => rfl
  | cons e rest ih =>
    have hndc := List.nodup_cons.mp hnd
    by_cases he : e.1 = p
    · simp only [Inventory.erase, if_pos he, List.filter_cons, he]
      simp only [decide_True, Bool.not_true, if_neg]
      rw [List.filter_eq_self.mpr]
      · rfl
      · intro x hx
        have : x.1 ≠ p := by
          intro hc
          exact hndc.1 (he ▸ hc ▸ mem_keys_of_mem hx)
        simp [this]
    · simp only [Inventory.erase, if_neg he, List.filter_cons]
      simp only [he, decide_False, Bool.not_false, if_pos]
      rw [ih hndc.2]

theorem keys_cons {e : Fname × Fp} {rest : Inventory} :
    Inventory.keys (e :: rest) = e.1 :: Inventory.keys rest := rfl

theorem mem_keys_erase {m : Inventory} {p x : Fname}
    (h : x ∈ (m.erase p).keys) : x ∈ m.keys := by
  induction m with
  | nil => simpa [Inventory.erase] using h
  | cons e rest ih =>
    by_cases he : e.1 = p
    · simp only [Inventory.erase, if_pos he] at h
      rw [keys_cons]
      exact List.mem_cons_of_mem _ h
    · simp only [Inventory.erase, if_neg he, keys_cons] at h
      rw [keys_cons]
      rcases List.mem_cons.mp h with h1 | h2
      · exact h1 ▸ List.mem_cons_self _ _
      · exact List.mem_cons_of_mem _ (ih h2)

theorem keys_erase_nodup {m : Inventory} (h : m.keys.Nodup) (p : Fname) :
    (m.erase p).keys.Nodup := by
  induction m with
  | nil => simp [Inventory.erase, Inventory.keys]
  | cons e rest ih =>
    have hc := List.nodup_cons.mp (by simpa [keys_cons] using h)
    by_cases he : e.1 = p
    · simp only [Inventory.erase, if_pos he]
      exact hc.2
    · simp only [Inventory.erase, if_neg he, keys_cons, List.nodup_cons]
      exact ⟨fun hmem => hc.1 (mem_keys_erase hmem), ih hc.2⟩

theorem push_run_some (current : Inventory) (hard : Bool) :
    ∀ (fs : List Fname) (st : Inventory × Inventory) (conflict resolved : List Fname),
      (∀ f ∈ fs, (current.find? f).isSome = true) →
      ∃ r, runResolver (push_step current hard) fs st conflict resolved = some r := by
  intro fs
  induction fs with
  | nil =>
    intro st c r _
    exact ⟨(c, r, st), rfl⟩
  | cons f fs ih =>
    intro st c r hdom
    obtain ⟨cv, hcv⟩ := Option.isSome_iff_exists.mp (hdom f (by simp))
    have hdom' : ∀ g ∈ fs, (current.find? g).isSome = true :=
      fun g hg => hdom g (List.mem_cons_of_mem f hg)
    have hstep : ∃ st' v, push_step current hard st f = some (st', v) := by
      unfold push_step
      simp only [hcv]
      split_ifs <;> exact ⟨_, _, rfl⟩
    obtain ⟨st', v, hstep⟩ := hstep
    cases v with
    | act =>
      obtain ⟨rr, hrr⟩ := ih st' c r hdom'
      exact ⟨rr, by simp only [runResolver, hstep]; exact hrr⟩
    | conf =>
      obtain ⟨rr, hrr⟩ := ih st' (c ++ [f]) r hdom'
      exact ⟨rr, by simp only [runResolver, hstep]; exact hrr⟩
    | res =>
      obtain ⟨rr, hrr⟩ := ih st' c (r ++ [f]) hdom'
      exact ⟨rr, by simp only [runResolver, hstep]; exact hrr⟩

theorem pull_run_some (current mas : Inventory) (hard : Bool) :
    ∀ (fs : List Fname) (locl : Inventory) (conflict resolved : List Fname),
      (∀ f ∈ fs, (mas.find? f).isSome = true) →
      ∃ r, runResolver (pull_step current mas hard) fs locl conflict resolved = some r := by
  intro fs
  induction fs with
  | nil =>
    intro locl c r _
    exact ⟨(c, r, locl), rfl⟩
  | cons f fs ih =>
    intro locl c r hdom
    obtain ⟨mv, hmv⟩ := Option.isSome_iff_exists.mp (hdom f (by simp))
    have hdom' : ∀ g ∈ fs, (mas.find? g).isSome = true :=
      fun g hg => hdom g (List.mem_cons_of_mem f hg)
    have hstep : ∃ st' v, pull_step current mas hard locl f = some (st', v) := by
      unfold pull_step
      simp only [hmv]
      split_ifs <;> exact ⟨_, _, rfl⟩
    obtain ⟨st', v, hstep⟩ := hstep
    cases v with
    | act =>
      obtain ⟨rr, hrr⟩ := ih st' c r hdom'
      exact ⟨rr, by simp only [runResolver, hstep]; exact hrr⟩
    | conf =>
      obtain ⟨rr, hrr⟩ := ih st' (c ++ [f]) r hdom'
      exact ⟨rr, by simp only [runResolver, hstep]; exact hrr⟩
    | res =>
      obtain ⟨rr, hrr⟩ := ih st' c (r ++ [f]) hdom'
      exact ⟨rr, by simp only [runResolver, hstep]; exact hrr⟩

theorem purge_run_some (hard : Bool) :
    ∀ (fs : List Fname) (mas locl : Inventory) (conflict resolved : List Fname),
      fs.Nodup →
      (∀ f ∈ fs, (locl.find? f).isSome = true) →
      ∃ r, runResolver (purge_step hard) fs (mas, locl) conflict resolved = some r := by
  intro fs
  induction fs with
  | nil =>
    intro mas locl c r _ _
    exact ⟨(c, r, (mas, locl)), rfl⟩
  | cons f fs ih =>
    intro mas locl c r hnd hdom
    have hndc := List.nodup_cons.mp hnd
    obtain ⟨lv, hlv⟩ := Option.isSome_iff_exists.mp (hdom f (by simp))
    have hdom' : ∀ g ∈ fs, (locl.find? g).isSome = true :=
      fun g hg => hdom g (List.mem_cons_of_mem f hg)
    have hdomE : ∀ g ∈ fs, ((locl.erase f).find? g).isSome = true := by
      intro g hg
      have hfg : f ≠ g := fun hc2 => hndc.1 (by rw [hc2]; exact hg)
      rw [Inventory.find?_erase_ne hfg]
      exact hdom' g hg
    by_cases hc : mas.contains f = true
    · by_cases hne : mas.find? f ≠ some lv
      · have hstep : purge_step hard (mas, locl) f = some ((mas, locl), Verdict.conf) := by
          unfold purge_step
          rw [if_pos hc]
          simp only [hlv]
          rw [if_pos hne]
        obtain ⟨rr, hrr⟩ := ih mas locl (c ++ [f]) r hndc.2 hdom'
        exact ⟨rr, by simp only [runResolver, hstep]; exact hrr⟩
      · by_cases hh : hard = true
        · have hstep : purge_step hard (mas, locl) f =
              some ((mas.erase f, locl.erase f), Verdict.act) := by
            unfold purge_step
            rw [if_pos hc]
            simp only [hlv]
            rw [if_neg hne, if_pos hh]
          obtain ⟨rr, hrr⟩ := ih (mas.erase f) (locl.erase f) c r hndc.2 hdomE
          exact ⟨rr, by simp only [runResolver, hstep]; exact hrr⟩
        · have hstep : purge_step hard (mas, locl) f =
              some ((mas, locl), Verdict.act) := by
            unfold purge_step
            rw [if_pos hc]
            simp only [hlv]
            rw [if_neg hne, if_neg hh]
          obtain ⟨rr, hrr⟩ := ih mas locl c r hndc.2 hdom'
          exact ⟨rr, by simp only [runResolver, hstep]; exact hrr⟩
    · have hpop : locl.pop f = some (locl.erase f) := by
        unfold Inventory.pop
        rw [if_pos (by simp [Inventory.contains, hlv])]
      have hstep : purge_step hard (mas, locl) f =
          some ((mas, locl.erase f), Verdict.res) := by
        unfold purge_step
        rw [if_neg hc]
        simp only [hpop]
      obtain ⟨rr, hrr⟩ := ih mas (locl.erase f) c (r ++ [f]) hndc.2 hdomE
      exact ⟨rr, by simp only [runResolver, hstep]; exact hrr⟩

theorem kill_false_run (current : Inventory) :
    ∀ (fs : List Fname) (locl : Inventory) (conflict resolved : List Fname),
      fs.Nodup → locl.keys.Nodup →
      (∀ f ∈ fs, (locl.find? f).isSome = true) →
      ∃ C R, runResolver (kill_step current false) fs locl conflict resolved =
        some (C, R, locl.filter
          (fun e => !(decide (e.1 ∈ fs)) || current.contains e.1)) := by
  intro fs
  induction fs with
  | nil =>
    intro locl c r _ _ _
    refine ⟨c, r, ?_⟩
    have hfil : locl.filter
        (fun e => !(decide (e.1 ∈ ([] : List Fname))) || current.contains e.1) = locl := by
      apply List.filter_eq_self.mpr
      intro e _
      simp
    rw [hfil]
    rfl
  | cons f fs ih =>
    intro locl c r hnd hkn hdom
    have hndc := List.nodup_cons.mp hnd
    obtain ⟨lv, hlv⟩ := Option.isSome_iff_exists.mp (hdom f (by simp))
    have hdom' : ∀ g ∈ fs, (locl.find? g).isSome = true :=
      fun g hg => hdom g (List.mem_cons_of_mem f hg)
    by_cases hc : current.contains f = true
    · have hfil : locl.filter
          (fun e => !(decide (e.1 ∈ f :: fs)) || current.contains e.1)
          = locl.filter (fun e => !(decide (e.1 ∈ fs)) || current.contains e.1) := by
        apply List.filter_congr
        intro e _
        by_cases hef : e.1 = f
        · simp [hef, hc]
        · simp [hef]
      by_cases hne : current.find? f ≠ some lv
      · have hstep : kill_step current false locl f = some (locl, Verdict.conf) := by
          unfold kill_step
          rw [if_pos hc]
          simp only [hlv]
          rw [if_pos hne]
        obtain ⟨C, R, hrr⟩ := ih locl (c ++ [f]) r hndc.2 hkn hdom'
        refine ⟨C, R, ?_⟩
        simp only [runResolver, hstep]
        rw [hfil]
        exact hrr
      · have hstep : kill_step current false locl f = some (locl, Verdict.act) := by
          unfold kill_step
          rw [if_pos hc]
          simp only [hlv]
          rw [if_neg hne]
          rfl
        obtain ⟨C, R, hrr⟩ := ih locl c r hndc.2 hkn hdom'
        refine ⟨C, R, ?_⟩
        simp only [runResolver, hstep]
        rw [hfil]
        exact hrr
    · have hcf : current.contains f = false := by simpa using hc
      have hpop : locl.pop f = some (locl.erase f) := by
        unfold Inventory.pop
        rw [if_pos (by simp [Inventory.contains, hlv])]
      have hstep : kill_step current false locl f = some (locl.erase f, Verdict.res) := by
        unfold kill_step
        rw [if_neg hc]
        simp only [hpop]
      have hdomE : ∀ g ∈ fs, ((locl.erase f).find? g).isSome = true := by
        intro g hg
        have hfg : f ≠ g := fun hc2 => hndc.1 (by rw [hc2]; exact hg)
        rw [Inventory.find?_erase_ne hfg]
        exact hdom' g hg
      obtain ⟨C, R, hrr⟩ := ih (locl.erase f) c (r ++ [f]) hndc.2
        (keys_erase_nodup hkn f) hdomE
      refine ⟨C, R, ?_⟩
      simp only [runResolver, hstep]
      rw [hrr]
      have hfil : (locl.erase f).filter
          (fun e => !(decide (e.1 ∈ fs)) || current.contains e.1)
          = locl.filter (fun e => !(decide (e.1 ∈ f :: fs)) || current.contains e.1) := by
        rw [erase_eq_filter hkn f, List.filter_filter]
        apply List.filter_congr
        intro e _
        by_cases hef : e.1 = f
        · simp [hef, hcf]
        · simp [hef]
      rw [hfil]

/-! ## `dat_status(remote=True)` — the `status -r` command

The remote branch of `dat_status` classifies with `hard=False`, calling
the four resolvers on restored copies of `local` / `master`, and runs
`write_inventory(local, '.dat/local')` after each resolver **before**
restoring `local` — so each write persists that resolver's quiet
mutations, and the last write (after the kill resolver) is what remains
on disk.  The function returns the final contents of `.dat/local`;
`none` models an uncaught exception. -/
def dat_status_r (current mas : Inventory) (disk : PyStr) : Option PyStr :=
  match read_inventory disk with
  | none => none
  | some locl =>
    match resolve_push_conflicts current locl mas (needs_push current locl) false with
    | none => none
    | some r1 =>
      let _disk1 := write_inventory r1.2.2.1
      match resolve_purge_conflicts mas locl (needs_purge current locl) false with
      | none => none
      | some r2 =>
        let _disk2 := write_inventory r2.2.2.2
        match resolve_pull_conflicts current locl mas (needs_pull mas locl) false with
        | none => none
        | some r3 =>
          let _disk3 := write_inventory r3.2.2
          match resolve_kill_conflicts current locl (needs_kill mas locl) false with
          | none => none
          | some r4 => some (write_inventory r4.2.2)

/-- C2 as stated is false at this input: with `.dat/local` holding the
single entry `a ↦ x` and both `current` and `master` empty (a resolved
path: present in local, absent from both current and master), `status -r`
rewrites `.dat/local` to the empty file — not byte-identical. -/
theorem C2_status_r_not_pure :
    dat_status_r [] [] ("a\tx\n".toList) = some [] ∧
    ("a\tx\n".toList : PyStr) ≠ [] := ⟨by decide, by decide⟩

/-- C2 amended: on any parseable `.dat/local`, `status -r` (dry mode)
completes and rewrites `.dat/local`; the final contents are the canonical
serialization of `local` restricted to the paths present in `master` or
in `current` — i.e. exactly the quietly-resolved kill candidates (in
`local`, absent from both `master` and `current`) are dropped.  The file
is byte-identical to its prior contents only when no such path exists and
the prior contents were already in canonical sorted form. -/
theorem C2_status_r_final_local (current mas : Inventory) (disk : PyStr)
    (locl : Inventory) (hread : read_inventory disk = some locl) :
    dat_status_r current mas disk =
      some (write_inventory (List.filter
        (fun e => mas.contains e.1 || current.contains e.1) locl)) := by
  have hkn := read_inventory_nodup hread
  have hdom1 : ∀ f ∈ needs_push current locl, (current.find? f).isSome = true :=
    fun f hf => Inventory.find?_isSome.mpr (mem_needs_push.mp hf).1
  have hdom2 : ∀ f ∈ needs_purge current locl, (locl.find? f).isSome = true :=
    fun f hf => Inventory.find?_isSome.mpr (mem_needs_purge.mp hf).1
  have hnd2 : (needs_purge current locl).Nodup := hkn.filter _
  have hdom3 : ∀ f ∈ needs_pull mas locl, (mas.find? f).isSome = true :=
    fun f hf => Inventory.find?_isSome.mpr (mem_needs_pull.mp hf).1
  have hdom4 : ∀ f ∈ needs_kill mas locl, (locl.find? f).isSome = true :=
    fun f hf => Inventory.find?_isSome.mpr (mem_needs_kill.mp hf).1
  have hnd4 : (needs_kill mas locl).Nodup := hkn.filter _
  obtain ⟨r1, hr1⟩ :=
    push_run_some current false (needs_push current locl) (locl, mas) [] [] hdom1
  obtain ⟨r2, hr2⟩ :=
    purge_run_some false (needs_purge current locl) mas locl [] [] hnd2 hdom2
  obtain ⟨r3, hr3⟩ :=
    pull_run_some current mas false (needs_pull mas locl) locl [] [] hdom3
  obtain ⟨C4, R4, hr4⟩ :=
    kill_false_run current (needs_kill mas locl) locl [] [] hnd4 hkn hdom4
  have hr1' : resolve_push_conflicts current locl mas (needs_push current locl) false =
      some r1 := hr1
  have hr2' : resolve_purge_conflicts mas locl (needs_purge current locl) false =
      some r2 := hr2
  have hr3' : resolve_pull_conflicts current locl mas (needs_pull mas locl) false =
      some r3 := hr3
  have hr4' : resolve_kill_conflicts current locl (needs_kill mas locl) false =
      some (C4, R4, List.filter
        (fun e => !(decide (e.1 ∈ needs_kill mas locl)) || current.contains e.1) locl) := hr4
  have hfil : List.filter
      (fun e => !(decide (e.1 ∈ needs_kill mas locl)) || current.contains e.1) locl =
      List.filter (fun e => mas.contains e.1 || current.contains e.1) locl := by
    apply List.filter_congr
    intro e he
    by_cases hm : mas.contains e.1 = true
    · have hnk : e.1 ∉ needs_kill mas locl :=
        fun hk => (mem_needs_kill.mp hk).2 (Inventory.contains_iff.mp hm)
      simp [hnk, hm]
    · have hmf : mas.contains e.1 = false := by simpa using hm
      have hmem : e.1 ∈ needs_kill mas locl :=
        mem_needs_kill.mpr ⟨mem_keys_of_mem he, Inventory.contains_false_iff.mp hmf⟩
      simp [hmem, hmf]
  unfold dat_status_r
  rw [hread]
  simp only [hr1', hr2', hr3', hr4']
  rw [hfil]

theorem C2_status_r_final_local_witness :
    dat_status_r [(['a'], ['x'])] [] ("a\tx\n".toList) =
      some (write_inventory (List.filter
        (fun e => Inventory.contains [] e.1 ||
          Inventory.contains [(['a'], ['x'])] e.1) [(['a'], ['x'])])) :=
  C2_status_r_final_local [(['a'], ['x'])] [] ("a\tx\n".toList) [(['a'], ['x'])]
    (by decide)

/-! ## `dat_push` and `dat_pull` — transport failure handling -/

structure PushResult where
  diskLocal : PyStr
  pushed : Bool
  upToDate : Bool
deriving DecidableEq

structure PullResult where
  diskLocal : PyStr
  upToDate : Bool
deriving DecidableEq

/-- `dat_push` after config reading, with the working tree summarized by
`current`, `.dat/local` by its contents `diskLocal`, and `get_master`
assumed successful with result `mas`.  The transport is modelled by its
exit status `transportExit`: the source runs `os.system(cmd)` and binds
the result to nothing, so the parameter is — faithfully — never
consulted.  Returns the final `.dat/local` contents, the final `pushed`
config flag, and whether the command exited "Everything up-to-date";
`none` models an uncaught exception. -/
def dat_push (current : Inventory) (diskLocal : PyStr) (mas : Inventory)
    (dry : Bool) (transportExit : Int) (pushedCfg : Bool) : Option PushResult :=
  match read_inventory diskLocal with
  | none => none
  | some locl =>
    let push := needs_push current locl
    let purg := needs_purge current locl
    if push ++ purg = [] then
      some ⟨diskLocal, pushedCfg, true⟩
    else
      match resolve_push_conflicts current locl mas push true with
      | none => none
      | some r1 =>
        match resolve_purge_conflicts r1.2.2.2 r1.2.2.1 purg true with
        | none => none
        | some r2 =>
          let conflict := r1.1 ++ r2.1
          if push ++ purg ≠ [] then
            if dry then some ⟨diskLocal, pushedCfg, false⟩
            else some ⟨write_inventory r2.2.2.2, true, false⟩
          else if conflict = [] then
            if dry then some ⟨diskLocal, pushedCfg, true⟩
            else some ⟨write_inventory r2.2.2.2, pushedCfg, true⟩
          else if dry then some ⟨diskLocal, pushedCfg, false⟩
          else some ⟨diskLocal, true, false⟩

/-- `dat_pull`, modelled like `dat_push`: the `os.system(cmd)` exit
status `transportExit` is never consulted by the source. -/
def dat_pull (current : Inventory) (diskLocal : PyStr) (mas : Inventory)
    (dry : Bool) (transportExit : Int) : Option PullResult :=
  match read_inventory diskLocal with
  | none => none
  | some locl =>
    let pull := needs_pull mas locl
    let kill := needs_kill mas locl
    match resolve_pull_conflicts current locl mas pull true with
    | none => none
    | some r3 =>
      match resolve_kill_conflicts current r3.2.2 kill true with
      | none => none
      | some r4 =>
        let conflict := r3.1 ++ r4.1
        if pull ++ kill ≠ [] then
          if dry then some ⟨diskLocal, false⟩
          else some ⟨write_inventory r4.2.2, false⟩
        else if conflict = [] then
          if dry then some ⟨diskLocal, true⟩
          else some ⟨write_inventory r4.2.2, true⟩
        else some ⟨diskLocal, false⟩

/-- C4 states the spec's failure semantics, but the code does not
implement them: both commands run the transport via `os.system` without
examining its exit status.  The first two conjuncts show the outcome is
literally independent of the exit status; the rest evaluate a push and a
pull whose transport fails (exit 1) — `.dat/local` is still rewritten
(push even sets `pushed=True`) and the command does not terminate
fatally. -/
theorem C4_local_written_despite_transport_failure :
    (∀ (current : Inventory) (diskLocal : PyStr) (mas : Inventory)
       (dry : Bool) (pushedCfg : Bool) (e e' : Int),
      dat_push current diskLocal mas dry e pushedCfg =
        dat_push current diskLocal mas dry e' pushedCfg) ∧
    (∀ (current : Inventory) (diskLocal : PyStr) (mas : Inventory)
       (dry : Bool) (e e' : Int),
      dat_pull current diskLocal mas dry e =
        dat_pull current diskLocal mas dry e') ∧
    dat_push [(['a'], ['h'])] [] [] false 1 false =
      some ⟨"a\th\n".toList, true, false⟩ ∧
    dat_pull [] [] [(['a'], ['h'])] false 1 =
      some ⟨"a\th\n".toList, false⟩ ∧
    ("a\th\n".toList : PyStr) ≠ [] :=
  ⟨fun _ _ _ _ _ _ _ => rfl, fun _ _ _ _ _ _ => rfl,
   by decide, by decide, by decide⟩

/-! ## `dat_pop` (`stash pop`) -/

structure StashEntry where
  name : Fname
  isFile : Bool
deriving DecidableEq

inductive PopOutcome
  | noStash
  | refused (name : Fname)
  | done (wt : List Fname)
deriving DecidableEq

/-- `shutil.move` into the working directory, at the level of the set of
working-tree files: overwriting leaves a single entry. -/
def move_to_wt (wt : List Fname) (name : Fname) : List Fname :=
  if name ∈ wt then wt else wt ++ [name]

def dat_pop_loop : List StashEntry → List Fname → Bool → PopOutcome
  | [], wt, _ => PopOutcome.done wt
  | e :: rest, wt, hard =>
    if e.isFile then
      if hard then dat_pop_loop rest (move_to_wt wt e.name) hard
      else PopOutcome.refused e.name
    else
      dat_pop_loop rest (move_to_wt wt e.name) hard

/-- `dat_pop`: `stash?` is `none` when `.dat/stash` does not exist,
otherwise the glob of its entries (name and `os.path.isfile` flag);
`wt` is the set of files in the working directory.  Faithful to the
source, the refusal test is `os.path.isfile(f)` on the STASH path `f`
itself — the destination is never consulted. -/
def dat_pop (stash? : Option (List StashEntry)) (wt : List Fname)
    (hard : Bool) : PopOutcome :=
  match stash? with
  | none => PopOutcome.noStash
  | some entries => dat_pop_loop entries wt hard

/-- C5 states the intended behavior, but the code refuses whenever the
stash holds any regular file: here the working tree is empty, so no
destination exists and no overwrite could occur, yet `stash pop` without
`--hard` refuses (with a message claiming it "would overwrite" the
file); with `--hard` the same stash pops. -/
theorem C5_pop_refuses_without_overwrite :
    dat_pop (some [⟨['a'], true⟩]) [] false = PopOutcome.refused ['a'] ∧
    (['a'] : Fname) ∉ ([] : List Fname) ∧
    dat_pop (some [⟨['a'], true⟩]) [] true = PopOutcome.done [['a']] :=
  ⟨rfl, by simp, rfl⟩

/-! ## `take_inventory` — the walker's exclusion rules -/

/-- Python `s.startswith(pre)`. -/
def pyStartswith (s pre : PyStr) : Bool :=
  match pre, s with
  | [], _ => true
  | _ :: _, [] => false
  | p :: ps, c :: cs => if c = p then pyStartswith cs ps else false

/-- `take_inventory`: `tree` is the list of relative paths produced by
the `os.walk` loop (after `re.sub('^\\./', '', root + '/' + file)`),
`fpOf` the fingerprint of each file.  The exclusion comprehension keeps
`x` unless `x.startswith('.dat')`, `x.startswith('.git')`, or
`x == '.DS_Store'`. -/
def take_inventory (tree : List Fname) (fpOf : Fname → Fp) : Inventory :=
  let inv := tree.filter (fun x =>
    !(pyStartswith x (".dat".toList)) && !(pyStartswith x (".git".toList)) &&
    !(decide (x = ".DS_Store".toList)))
  inv.foldl (fun out f => out.set f (fpOf f)) []

def firstComponent (p : Fname) : PyStr := p.takeWhile (fun c => !(decide (c = '/')))

theorem mem_keys_set {m : Inventory} {p q : Fname} {v : Fp} :
    p ∈ (m.set q v).keys ↔ p ∈ m.keys ∨ p = q := by
  by_cases hc : m.contains q = true
  · rw [keys_set_contains hc]
    constructor
    · exact Or.inl
    · rintro (h | rfl)
      · exact h
      · exact Inventory.contains_iff.mp hc
  · rw [keys_set_not_contains (by simpa using hc)]
    simp [Inventory.keys]

theorem mem_keys_fold_set (fpOf : Fname → Fp) :
    ∀ (xs : List Fname) (acc : Inventory) (p : Fname),
      p ∈ (xs.foldl (fun out f => out.set f (fpOf f)) acc).keys ↔
        p ∈ acc.keys ∨ p ∈ xs := by
  intro xs
  induction xs with
  | nil =>
    intro acc p
    simp
  | cons x xs ih =>
    intro acc p
    rw [List.foldl_cons, ih, mem_keys_set]
    simp only [List.mem_cons]
    tauto

/-- C9 as stated is false at this input: `.gitignore` has first component
`.gitignore` (neither `.dat` nor `.git`) and is not `.DS_Store`, yet the
walker excludes it, because the exclusion tests the string prefix
`.git`, not the first path component. -/
theorem C9_gitignore_excluded :
    firstComponent (".gitignore".toList) ≠ ".dat".toList ∧
    firstComponent (".gitignore".toList) ≠ ".git".toList ∧
    (".gitignore".toList : PyStr) ≠ ".DS_Store".toList ∧
    (take_inventory [".gitignore".toList] (fun _ => [])).keys = [] :=
  ⟨by decide, by decide, by decide, by decide⟩

/-- C9 amended: the walker's inventory contains exactly the walked paths
that do not start — as strings — with `.dat` or `.git` and are not the
literal path `.DS_Store`.  String-prefix exclusion covers every path
whose first component is `.dat` or `.git`, but excludes more (for
example `.gitignore` and `.database`); and the literal comparison keeps
nested `.DS_Store` entries such as `sub/.DS_Store`. -/
theorem C9_walker_exclusions (tree : List Fname) (fpOf : Fname → Fp) (p : Fname) :
    p ∈ (take_inventory tree fpOf).keys ↔
      p ∈ tree ∧ pyStartswith p (".dat".toList) = false ∧
        pyStartswith p (".git".toList) = false ∧ p ≠ ".DS_Store".toList := by
  unfold take_inventory
  rw [mem_keys_fold_set]
  simp only [Inventory.keys, List.map_nil, List.not_mem_nil, false_or]
  rw [List.mem_filter]
  simp [Bool.and_eq_true, Bool.not_eq_true', and_assoc]
